import Mathlib

set_option maxHeartbeats 1000000

/-!
Verification development for the same-domain web crawler in
`Server/main.go`.  The Go source is shallowly embedded: pure string
manipulation becomes Lean functions on `String`/`List Char`, the stateful
recursive crawl becomes explicit state passing over a `RunState`, network
and filesystem effects become an explicit `World` of outcomes, and the
goroutine/semaphore interplay becomes a small-step labelled transition
system.  Collaborator libraries (Go's net/url, the anchor walk over
x/net/html) are modelled by functions reproducing their behaviour on the
inputs that occur here.  All string operations are implemented by
structural recursion over character lists so that every definition
evaluates inside the kernel.
-/

namespace WebCrawler

/-- Model of a parsed URL: the fields of Go's `url.URL` that the crawler
touches — Scheme, Opaque (here `opq`), Host, Path.  Query, fragment and
user-info never occur in the inputs considered and are omitted. -/
structure GoURL where
  scheme : String
  opq : String
  host : String
  path : String
deriving DecidableEq

/-- Characters allowed in a URL scheme after the first (Go `net/url`). -/
def schemeChar (c : Char) : Bool :=
  c.isAlpha || c.isDigit || c = '+' || c = '-' || c = '.'

/-- Model of `getScheme` from Go's net/url: scan for a scheme terminated by
a colon.  `none` is a parse error (colon at position 0); `some none` means
the string has no scheme (first non-scheme character reached, or no colon);
`some (some (sch, rest))` splits off the scheme. -/
def getSchemeGo : List Char → List Char → Option (Option (String × List Char))
  | _, [] => some none
  | acc, c :: rest =>
    if c = ':' then
      if acc.isEmpty then none else some (some (⟨acc.reverse⟩, rest))
    else if (if acc.isEmpty then c.isAlpha else schemeChar c) then
      getSchemeGo (c :: acc) rest
    else some none

/-- Model of Go's `url.Parse` on the URL shapes the crawler meets:
`scheme://host/path`, `scheme:opaquedata`, protocol-relative `//host/path`,
absolute path `/p`, relative path `p`.  Control characters make parsing
fail, as in Go. -/
def parseURL (s : String) : Option GoURL :=
  if s.data.any (fun c => c.val < 32) then none
  else
    match getSchemeGo [] s.data with
    | none => none
    | some res =>
      let scheme : String := match res with | none => "" | some (sch, _) => sch
      let rest : List Char := match res with | none => s.data | some (_, r) => r
      if scheme ≠ "" ∧ ¬ (rest.head? = some '/') then
        some ⟨scheme, ⟨rest⟩, "", ""⟩
      else if rest.take 2 = ['/', '/'] then
        let after := rest.drop 2
        some ⟨scheme, "", ⟨after.takeWhile (fun c => c ≠ '/')⟩,
              ⟨after.dropWhile (fun c => c ≠ '/')⟩⟩
      else
        some ⟨scheme, "", "", ⟨rest⟩⟩

/-- Model of Go's `url.URL.Hostname()`: the host with any port stripped
(IPv6 literals do not occur in the inputs considered). -/
def hostname (u : GoURL) : String :=
  ⟨u.host.data.takeWhile (fun c => c ≠ ':')⟩

/-- Model of Go's `url.URL.String()` restricted to the modelled fields. -/
def urlToString (u : GoURL) : String :=
  (if u.scheme ≠ "" then u.scheme ++ ":" else "")
    ++ (if u.opq ≠ "" then u.opq
        else
          (if u.host ≠ "" ∨ u.path ≠ "" then
            (if u.scheme ≠ "" ∨ u.host ≠ "" then "//" ++ u.host else "")
           else "")
          ++ u.path)

/-- The characters of `l` up to and including the last slash (Go's
`base[:strings.LastIndex(base, "/")+1]`). -/
def upToLastSlash (l : List Char) : List Char :=
  ((l.reverse).dropWhile (fun c => c ≠ '/')).reverse

/-- `strings.Split` on the separator `/`, over character lists. -/
def splitOnSlash : List Char → List (List Char)
  | [] => [[]]
  | c :: rest =>
    if c = '/' then [] :: splitOnSlash rest
    else
      match splitOnSlash rest with
      | [] => [[c]]
      | h :: t => (c :: h) :: t

/-- `strings.Join` with separator `/`, over character lists. -/
def joinSlash : List (List Char) → List Char
  | [] => []
  | [x] => x
  | x :: xs => x ++ '/' :: joinSlash xs

/-- The dot-segment removal loop of Go's `resolvePath`. -/
def resolveSegs : List (List Char) → List (List Char) → List (List Char)
  | dst, [] => dst
  | dst, e :: rest =>
    if e = ['.'] then resolveSegs dst rest
    else if e = ['.', '.'] then resolveSegs dst.dropLast rest
    else resolveSegs (dst ++ [e]) rest

/-- Model of `resolvePath` from Go's net/url: merge `ref` onto `base`,
remove dot segments, and force a single leading slash. -/
def resolvePath (base ref : String) : String :=
  let full : List Char :=
    if ref.data = [] then base.data
    else if ¬ (ref.data.head? = some '/') then upToLastSlash base.data ++ ref.data
    else ref.data
  if full = [] then ""
  else
    let src := splitOnSlash full
    let dst := resolveSegs [] src
    let dst :=
      if src.getLast? = some ['.'] ∨ src.getLast? = some ['.', '.'] then
        dst ++ [[]]
      else dst
    let joined := joinSlash dst
    ⟨'/' :: (if joined.head? = some '/' then joined.drop 1 else joined)⟩

/-- Model of `url.URL.ResolveReference` from Go's net/url (query, fragment
and user-info omitted: absent from all inputs considered). -/
def resolveReference (base ref : GoURL) : GoURL :=
  if ref.scheme ≠ "" ∨ ref.host ≠ "" then
    { scheme := if ref.scheme = "" then base.scheme else ref.scheme,
      opq := ref.opq, host := ref.host, path := resolvePath ref.path "" }
  else if ref.opq ≠ "" then
    { scheme := base.scheme, opq := ref.opq, host := "", path := "" }
  else
    { scheme := base.scheme, opq := "", host := base.host,
      path := resolvePath base.path ref.path }

/-- Model of `strings.TrimRight(s, "/")`: remove every trailing slash. -/
def trimRightSlashes (s : String) : String :=
  ⟨((s.data.reverse).dropWhile (fun c => c = '/')).reverse⟩

/-- Standard URL resolution of href `h` against page URL `p`: parse both
and apply the resolver.  This is the specification-side notion used to
judge `extractLinks`. -/
def resolveHref (p h : String) : Option String :=
  (parseURL p).bind (fun pu =>
    (parseURL h).map (fun hu => urlToString (resolveReference pu hu)))

/-- The six characters of the attribute marker searched for by the href
scanner. -/
def hrefChars : List Char := ['h', 'r', 'e', 'f', '=', '"']

/-- Scanner state machine for href attribute values.  `Sum.inl k` means the
first `k` characters of the marker have been matched; `Sum.inr acc` means a
value is being collected (in reverse) until the closing quote.  Because the
marker has no proper border and its first character does not recur in it, the
restart-at-current-character rule makes this exactly substring search. -/
def hrefScanGo : Nat ⊕ List Char → List Char → List String
  | Sum.inl _, [] => []
  | Sum.inl k, c :: rest =>
    if hrefChars.get? k = some c then
      if k = 5 then hrefScanGo (Sum.inr []) rest
      else hrefScanGo (Sum.inl (k + 1)) rest
    else if c = 'h' then hrefScanGo (Sum.inl 1) rest
    else hrefScanGo (Sum.inl 0) rest
  | Sum.inr acc, [] => [⟨acc.reverse⟩]
  | Sum.inr acc, c :: rest =>
    if c = '"' then ⟨acc.reverse⟩ :: hrefScanGo (Sum.inl 0) rest
    else hrefScanGo (Sum.inr (c :: acc)) rest

/-- Model of the html.Parse + anchor-walk collaborator inside
`extractLinks`: the href attribute values of the document, in document
order.  For the simple anchor-tag documents considered this matches the
traversal that takes the first `href` attribute of each `a` element. -/
def findHrefs (body : String) : List String :=
  hrefScanGo (Sum.inl 0) body.data

/-- First-occurrence deduplication; models the `links` map of
`extractLinks` (one linearization of Go's map iteration order). -/
def dedupKeepFirst : List String → List String → List String
  | _, [] => []
  | seen, x :: xs =>
    if x ∈ seen then dedupKeepFirst seen xs
    else x :: dedupKeepFirst (x :: seen) xs

/-- Model of `Crawler.extractLinks` from Server/main.go: for each href in
the body, parse it, resolve it against `c.baseURL` — the crawler's seed URL
field, NOT the `baseURL`/`pageURL` argument, which the Go function receives
and never uses — stringify, trim trailing slashes, and deduplicate. -/
def extractLinks (cBaseURL : GoURL) (body : String) (pageURL : String) :
    List String :=
  let _ := pageURL
  dedupKeepFirst []
    ((findHrefs body).filterMap (fun href =>
      (parseURL href).map (fun l =>
        trimRightSlashes (urlToString (resolveReference cBaseURL l)))))

/-- `strings.HasPrefix(s, "http")`. -/
def hasHttpStart (s : String) : Bool :=
  match s.data with
  | 'h' :: 't' :: 't' :: 'p' :: _ => true
  | _ => false

/-- Model of `Crawler.isValidLink` from Server/main.go. -/
def isValidLink (cBaseURL : GoURL) (linkURL : String) : Bool :=
  match parseURL linkURL with
  | none => false
  | some p =>
    hostname p == hostname cBaseURL
      && !(p.path.data.contains '@')
      && hasHttpStart p.scheme

/-- Model of the filename computation of `Crawler.savePage`:
`strings.ReplaceAll(parsedURL.Path, "/", "_")` (a single-character
replacement, hence a character map), the `""`/`"_"` fallback to `index`,
and the `.html` suffix. -/
def saveFilename (path : String) : String :=
  let f := path.data.map (fun ch => if ch = '/' then '_' else ch)
  let f := if f = [] ∨ f = ['_'] then "index".data else f
  ⟨f ++ ".html".data⟩

/-- The crawler's static configuration, as built by `NewCrawler`
(the `visited` map, wait group and concurrency channel are run state and
live in `RunState` and the `Step` system below). -/
structure Crawler where
  baseURL : GoURL
  maxDepth : Nat
  outputDirectory : String
deriving DecidableEq

/-- Model of `NewCrawler` from Server/main.go: parse the seed URL and
derive the output directory `filepath.Join("crawl_output", host)` from the
seed's host. -/
def NewCrawler (baseURLStr : String) (maxDepth : Nat) : Option Crawler :=
  (parseURL baseURLStr).map (fun u =>
    ⟨u, maxDepth, "crawl_output" ++ "/" ++ hostname u⟩)

/-- Outcome of one `savePage` call, fixed by the external world: `ok`
(io.ReadAll and os.WriteFile both succeed), `writeErr` (body fully read,
write fails), `readErr k` (io.ReadAll fails after consuming `k`
characters of the response stream). -/
inductive PersistOutcome
  | ok
  | writeErr
  | readErr (consumed : Nat)
deriving DecidableEq

/-- The external world of one run: what `http.Get` returns for each URL
(`none` is a network error) and how persistence behaves for each URL. -/
structure World where
  fetch : String → Option String
  persist : String → PersistOutcome

/-- Observable events of a run, in order of occurrence. -/
inductive Event
  | fetched (url : String) (depth : Nat)
  | fetchErr (url : String) (depth : Nat)
  | saved (file : String) (url : String)
  | saveErr (url : String)
deriving DecidableEq

/-- Mutable run state shared through the crawl: the `visited` map's keys
and the event log. -/
structure RunState where
  visited : List String
  events : List Event
deriving DecidableEq

/-- Model of `Crawler.savePage`: re-parse the page URL (failure returns the
error before touching the body), then `io.ReadAll(resp.Body)` followed by
`os.WriteFile`.  Returns the new state and — crucially — what is LEFT of
the response stream afterwards: persistence consumes the stream, so on
success the remainder is empty. -/
def savePageModel (c : Crawler) (w : World) (pageURL body : String)
    (st : RunState) : RunState × String :=
  match parseURL pageURL with
  | none => ({ st with events := st.events ++ [.saveErr pageURL] }, body)
  | some u =>
    match w.persist pageURL with
    | .ok =>
        ({ st with events := st.events ++
            [.saved (c.outputDirectory ++ "/" ++ saveFilename u.path) pageURL] },
         "")
    | .writeErr => ({ st with events := st.events ++ [.saveErr pageURL] }, "")
    | .readErr k =>
        ({ st with events := st.events ++ [.saveErr pageURL] },
         ⟨body.data.drop k⟩)

/-- Sequential traversal of the spawned child tasks (one linearization of
the `go c.crawlPage(link, depth+1)` goroutines). -/
def crawlList (crawlFn : String → Nat → RunState → Option RunState) :
    List String → Nat → RunState → Option RunState
  | [], _, st => some st
  | url :: rest, depth, st =>
    match crawlFn url depth st with
    | none => none
    | some st' => crawlList crawlFn rest depth st'

/-- Model of `Crawler.crawlPage` from Server/main.go, with explicit fuel
bounding the recursion depth (`none` = fuel exhausted): depth check,
visited check-and-insert under the mutex, fetch, savePage (which drains
the response stream), extractLinks on what remains of the stream, then the
admissible links crawled at depth+1. -/
def crawlPage (c : Crawler) (w : World) :
    Nat → String → Nat → RunState → Option RunState
  | 0, _, _, _ => none
  | fuel + 1, pageURL, depth, st =>
    if c.maxDepth < depth then some st
    else if pageURL ∈ st.visited then some st
    else
      let st1 : RunState := { st with visited := pageURL :: st.visited }
      match w.fetch pageURL with
      | none => some { st1 with events := st1.events ++ [.fetchErr pageURL depth] }
      | some body =>
        let st2 : RunState :=
          { st1 with events := st1.events ++ [.fetched pageURL depth] }
        let pr := savePageModel c w pageURL body st2
        let links := extractLinks c.baseURL pr.2 pageURL
        crawlList (fun u d s => crawlPage c w fuel u d s)
          (links.filter (fun l => isValidLink c.baseURL l)) (depth + 1) pr.1

/-- Model of `Crawler.Crawl`: seed one task for `c.baseURL.String()` at
depth 0 and wait for the task tree to finish. -/
def Crawl (c : Crawler) (w : World) (fuel : Nat) : Option RunState :=
  crawlPage c w fuel (urlToString c.baseURL) 0 ⟨[], []⟩

/-- Model of the visited-set claim operation (Server/main.go lines 64–70):
under the mutex, test membership; if present return false, else insert and
return true. -/
def claim (visited : List String) (target : String) : Bool × List String :=
  if target ∈ visited then (false, visited)
  else (true, target :: visited)

/-- Number of successful claims of target `t` across a sequence of claim
calls starting from the set `visited`. -/
def countClaimTrue (visited : List String) (targets : List String)
    (t : String) : Nat :=
  match targets with
  | [] => 0
  | x :: xs =>
    (if x = t ∧ (claim visited x).1 = true then 1 else 0)
      + countClaimTrue (claim visited x).2 xs t

/-- A fetch attempt recorded in the event log (`http.Get` was called),
successful or not, with its URL and depth. -/
def isFetchEvent : Event → Option (String × Nat)
  | .fetched u d => some (u, d)
  | .fetchErr u d => some (u, d)
  | _ => none

/-- The (url, depth) pairs of all fetch attempts of a run. -/
def fetchLog (evts : List Event) : List (String × Nat) :=
  evts.filterMap isFetchEvent

/-- The crawler built by `NewCrawler("https://site.com", d)`, for the
concrete scenarios below. -/
def siteCrawler (d : Nat) : Crawler :=
  ⟨⟨"https", "", "site.com", ""⟩, d, "crawl_output/site.com"⟩

/-- World for the drained-stream scenario: the seed page holds one
admissible anchor, persistence succeeds everywhere. -/
def drainWorld : World :=
  ⟨fun u => if u = "https://site.com" then some "<a href=\"/a\">x</a>" else none,
   fun _ => PersistOutcome.ok⟩

/-- World for the sibling-isolation scenario: the seed page links to `/b`
(whose fetch fails) and `/a` (which succeeds and links on to `/a1`).
Persistence fails before reading on the pages whose links matter, so the
extractor sees their bodies. -/
def siblingWorld : World :=
  ⟨fun u =>
     if u = "https://site.com" then some "<a href=\"/b\">B</a><a href=\"/a\">A</a>"
     else if u = "https://site.com/a" then some "<a href=\"/a1\">x</a>"
     else if u = "https://site.com/a1" then some ""
     else none,
   fun u =>
     if u = "https://site.com/a1" then PersistOutcome.ok
     else PersistOutcome.readErr 0⟩

/-- The crawler built by `NewCrawler("https://site.com/", 1)` — note the
trailing slash in the seed. -/
def slashCrawler : Crawler :=
  ⟨⟨"https", "", "site.com", "/"⟩, 1, "crawl_output/site.com"⟩

/-- World for the trailing-slash scenario: the root page links to itself
via href "/"; its persistence fails before reading, so the self link is
seen. -/
def slashWorld : World :=
  ⟨fun u =>
     if u = "https://site.com/" then some "<a href=\"/\">x</a>"
     else if u = "https://site.com" then some ""
     else none,
   fun u =>
     if u = "https://site.com/" then PersistOutcome.readErr 0
     else PersistOutcome.ok⟩

/-- World in which every fetch fails. -/
def failWorld : World := ⟨fun _ => none, fun _ => PersistOutcome.ok⟩

/-! ## Lemmas about the visited-set claim operation -/

lemma claim_mem_mono (v : List String) (x t : String) (h : t ∈ v) :
    t ∈ (claim v x).2 := by
  unfold claim
  split
  · exact h
  · exact List.mem_cons_of_mem _ h

lemma claim_true_self_mem (v : List String) (t : String) :
    t ∈ (claim v t).2 := by
  unfold claim
  split
  · assumption
  · exact List.mem_cons_self _ _

lemma countClaimTrue_of_mem (t : String) :
    ∀ (seq : List String) (v : List String), t ∈ v →
      countClaimTrue v seq t = 0 := by
  intro seq
  induction seq with
  | nil => intro v _; rfl
  | cons x xs ih =>
    intro v hv
    have h0 : ¬ (x = t ∧ (claim v x).1 = true) := by
      rintro ⟨rfl, hc⟩
      simp [claim, hv] at hc
    simp only [countClaimTrue, if_neg h0, Nat.zero_add]
    exact ih _ (claim_mem_mono v x t hv)

lemma countClaimTrue_le_one (t : String) :
    ∀ (seq : List String) (v : List String), countClaimTrue v seq t ≤ 1 := by
  intro seq
  induction seq with
  | nil => intro v; simp [countClaimTrue]
  | cons x xs ih =>
    intro v
    by_cases hxt : x = t ∧ (claim v x).1 = true
    · obtain ⟨rfl, hcl⟩ := hxt
      have hrest : countClaimTrue (claim v x).2 xs x = 0 :=
        countClaimTrue_of_mem x xs _ (claim_true_self_mem v x)
      simp [countClaimTrue, hcl, hrest]
    · simp only [countClaimTrue, if_neg hxt, Nat.zero_add]
      exact ih _

/-- C3: `claim(target)` returns true iff the target was absent at the
moment of the call, in which case it inserts it; the visited set only ever
grows (nothing is removed); and across any sequence of claim calls from
any starting set, at most one claim of a given target returns true. -/
theorem claim_spec (v : List String) (t : String) (seq : List String) :
    ((claim v t).1 = true ↔ t ∉ v)
    ∧ ((claim v t).1 = true → (claim v t).2 = t :: v)
    ∧ (∀ x, x ∈ v → x ∈ (claim v t).2)
    ∧ countClaimTrue v seq t ≤ 1 := by
  refine ⟨?_, ?_, ?_, countClaimTrue_le_one t seq v⟩
  · unfold claim
    split
    · simpa using ‹t ∈ v›
    · simpa using ‹¬ t ∈ v›
  · unfold claim
    split
    · simp
    · intro _; rfl
  · intro x hx; exact claim_mem_mono v t x hx

/-! ## The admission filter -/

/-- C7: `isValidLink` admits a link iff it parses to a URL whose hostname
equals the base (seed) hostname exactly, whose path has no literal `@`,
and whose scheme starts with "http"; of the four example links discovered
on a page of site.com, only `https://site.com/a` is admitted. -/
theorem isValidLink_spec (base : GoURL) (s : String) :
    (isValidLink base s = true ↔
      ∃ u, parseURL s = some u
        ∧ hostname u = hostname base
        ∧ u.path.data.contains '@' = false
        ∧ hasHttpStart u.scheme = true)
    ∧ isValidLink ⟨"https", "", "site.com", ""⟩ "https://site.com/a" = true
    ∧ isValidLink ⟨"https", "", "site.com", ""⟩ "https://other.com/b" = false
    ∧ isValidLink ⟨"https", "", "site.com", ""⟩ "mailto:x@site.com" = false
    ∧ isValidLink ⟨"https", "", "site.com", ""⟩ "ftp://site.com/c" = false := by
  refine ⟨?_, by decide, by decide, by decide, by decide⟩
  cases hp : parseURL s with
  | none => simp [isValidLink, hp]
  | some u =>
    simp [isValidLink, hp, Bool.and_eq_true, beq_iff_eq, Bool.not_eq_true',
      and_assoc]

/-! ## Persistence naming -/

lemma saveFilename_no_slash (p : String) : '/' ∉ (saveFilename p).data := by
  unfold saveFilename
  intro hmem
  rcases List.mem_append.mp hmem with h | h
  · split at h
    · revert h; decide
    · rcases List.mem_map.mp h with ⟨c, _, hc⟩
      by_cases hcs : c = '/'
      · simp [hcs] at hc
      · simp [hcs] at hc
  · revert h; decide

lemma saveFilename_html (p : String) :
    ∃ stem : List Char, (saveFilename p).data = stem ++ ".html".data := by
  exact ⟨_, rfl⟩

/-- C9: the stored filename is derived from the URL's path alone by mapping
the slash separators to `_` (so it is a single path component, free of
slashes, ending in `.html`): path `/foo/bar` gives `_foo_bar.html`, the
empty and root paths give `index.html`, and the file sits in the output
directory that `NewCrawler` namespaces by the seed URL's host. -/
theorem savePage_naming (d : Nat) (w : World) (body : String) (st : RunState) :
    (∀ p : String, '/' ∉ (saveFilename p).data)
    ∧ (∀ p : String, ∃ stem : List Char, (saveFilename p).data = stem ++ ".html".data)
    ∧ NewCrawler "https://site.com" d = some (siteCrawler d)
    ∧ (w.persist "https://site.com/foo/bar" = PersistOutcome.ok →
        (savePageModel (siteCrawler d) w "https://site.com/foo/bar" body st).1.events
          = st.events ++ [Event.saved "crawl_output/site.com/_foo_bar.html"
              "https://site.com/foo/bar"])
    ∧ (w.persist "https://site.com/" = PersistOutcome.ok →
        (savePageModel (siteCrawler d) w "https://site.com/" body st).1.events
          = st.events ++ [Event.saved "crawl_output/site.com/index.html"
              "https://site.com/"])
    ∧ (w.persist "https://site.com" = PersistOutcome.ok →
        (savePageModel (siteCrawler d) w "https://site.com" body st).1.events
          = st.events ++ [Event.saved "crawl_output/site.com/index.html"
              "https://site.com"]) := by
  refine ⟨saveFilename_no_slash, saveFilename_html, rfl, ?_, ?_, ?_⟩
  all_goals intro hok
  all_goals simp only [savePageModel]
  all_goals rw [hok]
  all_goals rfl

/-- Witness for savePage_naming at a concrete world and state. -/
theorem savePage_naming_witness :
    drainWorld.persist "https://site.com/foo/bar" = PersistOutcome.ok
    ∧ (savePageModel (siteCrawler 2) drainWorld "https://site.com/foo/bar" ""
        ⟨[], []⟩).1.events
      = [] ++ [Event.saved "crawl_output/site.com/_foo_bar.html"
          "https://site.com/foo/bar"] :=
  ⟨rfl, (savePage_naming 2 drainWorld "" ⟨[], []⟩).2.2.2.1 rfl⟩

/-! ## Link extraction: the resolution base and the drained stream -/

/-- C1 (the code contradicts it): `extractLinks` resolves every href
against the crawler's SEED base URL (`c.baseURL`), ignoring its
`baseURL`/page argument entirely: on page `https://site.com/sub/page` the
relative href `child.html` comes out as `https://site.com/child.html`,
while standard resolution against the page itself gives
`https://site.com/sub/child.html`. -/
theorem extractLinks_uses_seed_base :
    extractLinks (siteCrawler 2).baseURL "<a href=\"child.html\">x</a>"
        "https://site.com/sub/page"
      = ["https://site.com/child.html"]
    ∧ resolveHref "https://site.com/sub/page" "child.html"
      = some "https://site.com/sub/child.html"
    ∧ ("https://site.com/child.html" : String)
      ≠ "https://site.com/sub/child.html" :=
  ⟨by decide, by decide, by decide⟩

/-- C2 (the code contradicts it): `savePage` consumes the response stream
(`io.ReadAll`) before `extractLinks` runs, so on a successful persist the
extractor parses an empty remainder, not the fetched body: the seed body
holds the admissible anchor `/a` (the extractor itself finds it when given
the body), yet the run visits and fetches nothing beyond the seed. -/
theorem extraction_sees_drained_stream :
    extractLinks (siteCrawler 2).baseURL "<a href=\"/a\">x</a>"
        "https://site.com"
      = ["https://site.com/a"]
    ∧ isValidLink (siteCrawler 2).baseURL "https://site.com/a" = true
    ∧ (savePageModel (siteCrawler 2) drainWorld "https://site.com"
        "<a href=\"/a\">x</a>"
        ⟨["https://site.com"], [Event.fetched "https://site.com" 0]⟩).2 = ""
    ∧ Crawl (siteCrawler 2) drainWorld 4
      = some ⟨["https://site.com"],
              [Event.fetched "https://site.com" 0,
               Event.saved "crawl_output/site.com/index.html"
                 "https://site.com"]⟩ :=
  ⟨by decide, by decide, by decide, by decide⟩

/-! ## Generic lemmas about the crawl recursion -/

lemma crawlList_isSome (crawlFn : String → Nat → RunState → Option RunState)
    (depth : Nat) (h : ∀ u s, (crawlFn u depth s).isSome) :
    ∀ (links : List String) (st : RunState),
      (crawlList crawlFn links depth st).isSome := by
  intro links
  induction links with
  | nil => intro st; simp [crawlList]
  | cons u rest ih =>
    intro st
    have hu := h u st
    cases hc : crawlFn u depth st with
    | none => rw [hc] at hu; simp at hu
    | some st' => simp only [crawlList, hc]; exact ih st'

lemma crawlList_unchanged (crawlFn : String → Nat → RunState → Option RunState)
    (depth : Nat)
    (h : ∀ u s, crawlFn u depth s = none ∨ crawlFn u depth s = some s) :
    ∀ (links : List String) (st st' : RunState),
      crawlList crawlFn links depth st = some st' → st' = st := by
  intro links
  induction links with
  | nil => intro st st' hc; simp [crawlList] at hc; exact hc.symm
  | cons u rest ih =>
    intro st st' hc
    rcases h u st with hu | hu
    · rw [crawlList, hu] at hc; cases hc
    · rw [crawlList, hu] at hc; exact ih st st' hc

lemma crawlList_events (P : Event → Prop)
    (crawlFn : String → Nat → RunState → Option RunState) (depth : Nat)
    (h : ∀ u s s', crawlFn u depth s = some s' →
      ∀ e, e ∈ s'.events → e ∈ s.events ∨ P e) :
    ∀ (links : List String) (st st' : RunState),
      crawlList crawlFn links depth st = some st' →
      ∀ e, e ∈ st'.events → e ∈ st.events ∨ P e := by
  intro links
  induction links with
  | nil =>
    intro st st' hc e he
    simp [crawlList] at hc
    subst hc
    exact Or.inl he
  | cons u rest ih =>
    intro st st' hc e he
    cases hf : crawlFn u depth st with
    | none => rw [crawlList, hf] at hc; cases hc
    | some s1 =>
      rw [crawlList, hf] at hc
      rcases ih s1 st' hc e he with h1 | h1
      · exact h u st s1 hf e h1
      · exact Or.inr h1

lemma crawlPage_none_or_skip (c : Crawler) (w : World) (fuel depth : Nat)
    (hd : c.maxDepth < depth) :
    ∀ u s, crawlPage c w fuel u depth s = none
      ∨ crawlPage c w fuel u depth s = some s := by
  intro u s
  cases fuel with
  | zero => exact Or.inl rfl
  | succ f => exact Or.inr (by simp [crawlPage, hd])

lemma savePageModel_split (c : Crawler) (w : World) (p b : String)
    (st : RunState) :
    ∃ ev, (savePageModel c w p b st).1.events = st.events ++ [ev]
      ∧ isFetchEvent ev = none := by
  unfold savePageModel
  cases parseURL p with
  | none => exact ⟨_, rfl, rfl⟩
  | some u =>
    cases w.persist p with
    | ok => exact ⟨_, rfl, rfl⟩
    | writeErr => exact ⟨_, rfl, rfl⟩
    | readErr k => exact ⟨_, rfl, rfl⟩

/-- Every event a crawlPage call appends is either a non-fetch event or a
fetch attempt at a depth within the configured bound. -/
lemma crawlPage_events_depthOK (c : Crawler) (w : World) :
    ∀ (fuel : Nat) (url : String) (depth : Nat) (st st' : RunState),
      crawlPage c w fuel url depth st = some st' →
      ∀ e, e ∈ st'.events → e ∈ st.events
        ∨ ∀ u d, isFetchEvent e = some (u, d) → d ≤ c.maxDepth := by
  intro fuel
  induction fuel with
  | zero => intro url depth st st' hc; simp [crawlPage] at hc
  | succ f ih =>
    intro url depth st st' hc e he
    by_cases hd : c.maxDepth < depth
    · simp only [crawlPage, if_pos hd, Option.some.injEq] at hc
      subst hc
      exact Or.inl he
    · by_cases hv : url ∈ st.visited
      · simp only [crawlPage, if_neg hd, if_pos hv, Option.some.injEq] at hc
        subst hc
        exact Or.inl he
      · cases hf : w.fetch url with
        | none =>
          simp only [crawlPage, if_neg hd, if_pos, if_neg hv, hf,
            Option.some.injEq] at hc
          subst hc
          simp only [List.mem_append, List.mem_singleton] at he
          rcases he with he | he
          · exact Or.inl he
          · subst he
            refine Or.inr ?_
            intro u d hfe
            simp only [isFetchEvent, Option.some.injEq, Prod.mk.injEq] at hfe
            omega
        | some body =>
          simp only [crawlPage, if_neg hd, if_neg hv, hf] at hc
          rcases savePageModel_split c w url body
              ⟨url :: st.visited, st.events ++ [Event.fetched url depth]⟩ with
            ⟨ev, hev, hevF⟩
          have hcall := crawlList_events
            (fun e => ∀ u d, isFetchEvent e = some (u, d) → d ≤ c.maxDepth)
            (fun u d s => crawlPage c w f u d s) (depth + 1)
            (fun u s s' hcc => ih u (depth + 1) s s' hcc)
            _ _ _ hc e he
          rcases hcall with h1 | h1
          · rw [hev] at h1
            simp only [List.mem_append, List.mem_singleton] at h1
            rcases h1 with (h1 | h1) | h1
            · exact Or.inl h1
            · subst h1
              refine Or.inr ?_
              intro u d hfe
              simp only [isFetchEvent, Option.some.injEq, Prod.mk.injEq] at hfe
              omega
            · subst h1
              refine Or.inr ?_
              intro u d hfe
              rw [hevF] at hfe
              cases hfe
          · exact Or.inr h1

/-- Fuel at least `maxDepth + 2 - depth` (and at least 1) always suffices:
the recursion is bounded by the depth check, so every run finishes. -/
lemma crawlPage_isSome (c : Crawler) (w : World) :
    ∀ (fuel depth : Nat), 1 ≤ fuel → c.maxDepth + 2 ≤ depth + fuel →
      ∀ (url : String) (st : RunState),
        (crawlPage c w fuel url depth st).isSome := by
  intro fuel
  induction fuel with
  | zero => intro depth h1; omega
  | succ f ih =>
    intro depth _ h2 url st
    by_cases hd : c.maxDepth < depth
    · simp [crawlPage, hd]
    · by_cases hv : url ∈ st.visited
      · simp [crawlPage, hd, hv]
      · cases hf : w.fetch url with
        | none => simp [crawlPage, hd, hv, hf]
        | some body =>
          simp only [crawlPage, if_neg hd, if_neg hv, hf]
          exact crawlList_isSome _ (depth + 1)
            (fun u s => ih (depth + 1) (by omega) (by omega) u s) _ _

/-- C6: for every configuration and every external world — so for every
finite link graph, cyclic or not — the crawl run terminates: fuel
`maxDepth + 2` (recursion depth bounded by the depth check, targets claimed
at most once) already yields a final state, i.e. the task tree finishes. -/
theorem crawl_terminates (c : Crawler) (w : World) :
    (Crawl c w (c.maxDepth + 2)).isSome :=
  crawlPage_isSome c w (c.maxDepth + 2) 0 (by omega) (by omega)
    (urlToString c.baseURL) ⟨[], []⟩

/-! ## The depth bound -/

/-- C4: a task whose depth exceeds maxDepth returns before claiming or
fetching (state untouched); every fetch attempt a crawl call adds to the
log is at a depth within the bound; and with maxDepth = 0 every fetch
attempt of a whole run is of the seed URL at depth 0, however many links
the seed page contains. -/
theorem depth_bound :
    (∀ (c : Crawler) (w : World) (fuel : Nat) (url : String) (depth : Nat)
        (st : RunState), c.maxDepth < depth →
        crawlPage c w (fuel + 1) url depth st = some st)
    ∧ (∀ (c : Crawler) (w : World) (fuel : Nat) (url : String) (depth : Nat)
        (st st' : RunState), crawlPage c w fuel url depth st = some st' →
        ∀ u d, (u, d) ∈ fetchLog st'.events →
          (u, d) ∈ fetchLog st.events ∨ d ≤ c.maxDepth)
    ∧ (∀ (c : Crawler) (w : World) (fuel : Nat) (st' : RunState),
        c.maxDepth = 0 → Crawl c w fuel = some st' →
        ∀ u d, (u, d) ∈ fetchLog st'.events →
          u = urlToString c.baseURL ∧ d = 0) := by
  refine ⟨?_, ?_, ?_⟩
  · intro c w fuel url depth st h
    simp [crawlPage, h]
  · intro c w fuel url depth st st' hc u d hm
    rcases List.mem_filterMap.mp hm with ⟨e, he, hfe⟩
    rcases crawlPage_events_depthOK c w fuel url depth st st' hc e he with
      h1 | h1
    · exact Or.inl (List.mem_filterMap.mpr ⟨e, h1, hfe⟩)
    · exact Or.inr (h1 u d hfe)
  · intro c w fuel st' h0 hc u d hm
    cases fuel with
    | zero => simp [Crawl, crawlPage] at hc
    | succ f =>
      have hd : ¬ c.maxDepth < 0 := by omega
      have hv : urlToString c.baseURL ∉ (⟨[], []⟩ : RunState).visited := by
        simp
      cases hf : w.fetch (urlToString c.baseURL) with
      | none =>
        simp only [Crawl, crawlPage, if_neg hd, if_neg hv, hf,
          List.nil_append, Option.some.injEq] at hc
        subst hc
        simp [fetchLog, isFetchEvent] at hm
        exact ⟨hm.1, hm.2⟩
      | some body =>
        simp only [Crawl, crawlPage, if_neg hd, if_neg hv, hf,
          List.nil_append] at hc
        have hst' := crawlList_unchanged _ (0 + 1)
          (fun u s => crawlPage_none_or_skip c w f (0 + 1) (by omega) u s)
          _ _ _ hc
        subst hst'
        rcases savePageModel_split c w (urlToString c.baseURL) body
            ⟨[urlToString c.baseURL], [Event.fetched (urlToString c.baseURL) 0]⟩
          with ⟨ev, hev, hevF⟩
        rw [fetchLog, hev] at hm
        simp [isFetchEvent, List.filterMap_append, hevF] at hm
        rcases hm with hm | hm
        · exact ⟨hm.1, hm.2⟩
        · exfalso
          have hbad : isFetchEvent ev = some (u, d) := hm
          rw [hevF] at hbad
          cases hbad

/-- Witness for depth_bound: at depth 3 > maxDepth 2 the task is a no-op. -/
theorem depth_bound_witness :
    (siteCrawler 2).maxDepth < 3
    ∧ crawlPage (siteCrawler 2) drainWorld 1 "https://site.com/x" 3 ⟨[], []⟩
      = some ⟨[], []⟩ :=
  ⟨by decide,
   depth_bound.1 (siteCrawler 2) drainWorld 0 "https://site.com/x" 3 ⟨[], []⟩
     (by decide)⟩

/-! ## Isolation of fetch failures -/

/-- C8: a task whose fetch fails claims its target, reports the error and
stops — no persistence, no children, state otherwise untouched — and in a
run where sibling `/b` of the seed page fails, sibling `/a` still completes
and spawns its own child `/a1`, the run finishing normally. -/
theorem fetch_failure_isolated :
    (∀ (c : Crawler) (w : World) (fuel : Nat) (url : String) (depth : Nat)
        (st : RunState),
        w.fetch url = none → depth ≤ c.maxDepth → url ∉ st.visited →
        crawlPage c w (fuel + 1) url depth st
          = some ⟨url :: st.visited, st.events ++ [Event.fetchErr url depth]⟩)
    ∧ Crawl (siteCrawler 2) siblingWorld 4
      = some ⟨["https://site.com/a1", "https://site.com/a",
               "https://site.com/b", "https://site.com"],
              [Event.fetched "https://site.com" 0,
               Event.saveErr "https://site.com",
               Event.fetchErr "https://site.com/b" 1,
               Event.fetched "https://site.com/a" 1,
               Event.saveErr "https://site.com/a",
               Event.fetched "https://site.com/a1" 2,
               Event.saved "crawl_output/site.com/_a1.html"
                 "https://site.com/a1"]⟩ := by
  refine ⟨?_, by decide⟩
  intro c w fuel url depth st hf hdep hv
  have hd : ¬ c.maxDepth < depth := by omega
  simp [crawlPage, hd, hv, hf]

/-- Witness for fetch_failure_isolated at a failing world. -/
theorem fetch_failure_isolated_witness :
    failWorld.fetch "https://x.test" = none
    ∧ crawlPage (siteCrawler 2) failWorld 1 "https://x.test" 0 ⟨[], []⟩
      = some ⟨["https://x.test"], [Event.fetchErr "https://x.test" 0]⟩ :=
  ⟨rfl,
   fetch_failure_isolated.1 (siteCrawler 2) failWorld 0 "https://x.test" 0
     ⟨[], []⟩ rfl (by decide) (by decide)⟩

/-! ## Trailing-slash asymmetry between seed and discovered links -/

lemma dropWhileLenLe (p : Char → Bool) :
    ∀ l : List Char, (List.dropWhile p l).length ≤ l.length := by
  intro l
  induction l with
  | nil => simp
  | cons a t ih =>
    rw [List.dropWhile_cons]
    split
    · exact Nat.le_succ_of_le ih
    · simp

/-- C10: the seed is entered into the visited set in its literal string
form (`c.baseURL.String()`, no trailing-slash strip), while every
discovered link is trailing-slash-stripped; any string ending in a slash
differs from its stripped form, so a seed ending in `/` and a discovered
link to the same page occupy two distinct visited keys, and the run below
fetches the same root page twice. -/
theorem trailing_slash_asymmetry :
    (∀ s : String, s.data.getLast? = some '/' → trimRightSlashes s ≠ s)
    ∧ NewCrawler "https://site.com/" 1 = some slashCrawler
    ∧ urlToString slashCrawler.baseURL = "https://site.com/"
    ∧ trimRightSlashes "https://site.com/" = trimRightSlashes "https://site.com"
    ∧ ("https://site.com/" : String) ≠ "https://site.com"
    ∧ Crawl slashCrawler slashWorld 3
      = some ⟨["https://site.com", "https://site.com/"],
              [Event.fetched "https://site.com/" 0,
               Event.saveErr "https://site.com/",
               Event.fetched "https://site.com" 1,
               Event.saved "crawl_output/site.com/index.html"
                 "https://site.com"]⟩ := by
  refine ⟨?_, by decide, by decide, by decide, by decide, by decide⟩
  intro s hlast heq
  have hdata : ((s.data.reverse).dropWhile (fun c => c = '/')).reverse
      = s.data := congrArg String.data heq
  have hhead : s.data.reverse.head? = some '/' := by
    rw [List.head?_reverse]; exact hlast
  cases hrev : s.data.reverse with
  | nil => rw [hrev] at hhead; cases hhead
  | cons c t =>
    rw [hrev] at hhead
    simp only [List.head?_cons, Option.some.injEq] at hhead
    subst hhead
    rw [hrev] at hdata
    have hlen := congrArg List.length hdata
    simp [List.dropWhile_cons] at hlen
    have hle : (t.dropWhile (fun c => c = '/')).length ≤ t.length :=
      dropWhileLenLe _ t
    have hsd : s.length = s.data.length := rfl
    have hsl : s.data.length = t.length + 1 := by
      have h := congrArg List.length hrev
      simp at h
      omega
    omega

/-- Witness for trailing_slash_asymmetry on a concrete slash-ended string. -/
theorem trailing_slash_asymmetry_witness :
    ("a/" : String).data.getLast? = some '/'
    ∧ trimRightSlashes "a/" ≠ "a/" :=
  ⟨by decide, trailing_slash_asymmetry.1 "a/" (by decide)⟩

/-! ## The concurrency admission gate

The goroutine/channel interplay of crawlPage (send on `concurrencyChan`
immediately before `http.Get`, deferred receive at function exit; the
channel is buffered with capacity `maxConcurrency`) is modelled as a
labelled transition system over the phases of the spawned tasks.  A task
holds a permit — one struct sits in the channel buffer on its behalf —
from its successful send until its deferred receive runs; the send is
enabled only while fewer than `cap` permits are held (buffer not full). -/

/-- Phase of one crawlPage goroutine relative to the concurrency channel. -/
inductive Phase
  | init
  | claimed
  | fetching
  | working
  | done
deriving DecidableEq

/-- Whether a task in this phase has sent on the channel without its
deferred receive having run yet. -/
def holdsPermit : Phase → Bool
  | Phase.fetching => true
  | Phase.working => true
  | _ => false

/-- Number of structs currently in the concurrency channel. -/
def holdingCount (ts : List Phase) : Nat := ts.countP holdsPermit

/-- Number of fetches executing simultaneously. -/
def fetchingCount (ts : List Phase) : Nat :=
  ts.countP (fun p => decide (p = Phase.fetching))

/-- Transition labels, indexed by the acting task. -/
inductive Label
  | claimSkip (i : Nat)
  | claimOk (i : Nat)
  | acquire (i : Nat)
  | fetchReturn (i : Nat)
  | fetchFail (i : Nat)
  | spawn (i : Nat)
  | finish (i : Nat)
deriving DecidableEq

/-- Small-step semantics of the task pool: depth/visited checks return
early without touching the channel (`claimSkip`); a claimed task blocks on
the channel send until the buffer has room (`acquire`); the fetch returns
either into the persist/extract/spawn phase (`fetchReturn`) or into the
error return (`fetchFail`, running the deferred receive); a working task
may spawn fresh tasks and finally returns (`finish`, deferred receive). -/
inductive Step (cap : Nat) : List Phase → Label → List Phase → Prop
  | claimSkip {ts : List Phase} {i : Nat} (h : ts.get? i = some Phase.init) :
      Step cap ts (Label.claimSkip i) (ts.set i Phase.done)
  | claimOk {ts : List Phase} {i : Nat} (h : ts.get? i = some Phase.init) :
      Step cap ts (Label.claimOk i) (ts.set i Phase.claimed)
  | acquire {ts : List Phase} {i : Nat} (h : ts.get? i = some Phase.claimed)
      (hcap : holdingCount ts < cap) :
      Step cap ts (Label.acquire i) (ts.set i Phase.fetching)
  | fetchReturn {ts : List Phase} {i : Nat}
      (h : ts.get? i = some Phase.fetching) :
      Step cap ts (Label.fetchReturn i) (ts.set i Phase.working)
  | fetchFail {ts : List Phase} {i : Nat}
      (h : ts.get? i = some Phase.fetching) :
      Step cap ts (Label.fetchFail i) (ts.set i Phase.done)
  | spawn {ts : List Phase} {i : Nat} (h : ts.get? i = some Phase.working) :
      Step cap ts (Label.spawn i) (ts ++ [Phase.init])
  | finish {ts : List Phase} {i : Nat} (h : ts.get? i = some Phase.working) :
      Step cap ts (Label.finish i) (ts.set i Phase.done)

/-- Reachability, recording the trace of labels. -/
inductive Reaches (cap : Nat) : List Phase → List Label → List Phase → Prop
  | refl (ts : List Phase) : Reaches cap ts [] ts
  | step {ts0 : List Phase} {ls : List Label} {ts1 : List Phase} {l : Label}
      {ts2 : List Phase} (h1 : Reaches cap ts0 ls ts1)
      (h2 : Step cap ts1 l ts2) : Reaches cap ts0 (ls ++ [l]) ts2

/-- Successful channel sends by task `i` in a trace. -/
def countAcquires (i : Nat) (ls : List Label) : Nat :=
  ls.countP (fun l => decide (l = Label.acquire i))

/-- Deferred channel receives by task `i` in a trace: these run exactly
when the function returns after its send — on the fetch-error return and
on normal completion. -/
def countReleases (i : Nat) (ls : List Label) : Nat :=
  ls.countP (fun l => decide (l = Label.fetchFail i ∨ l = Label.finish i))

lemma countAcquires_snoc (i : Nat) (ls : List Label) (l : Label) :
    countAcquires i (ls ++ [l])
      = countAcquires i ls + (if l = Label.acquire i then 1 else 0) := by
  simp [countAcquires, List.countP_append, List.countP_cons]

lemma countReleases_snoc (i : Nat) (ls : List Label) (l : Label) :
    countReleases i (ls ++ [l])
      = countReleases i ls
        + (if l = Label.fetchFail i ∨ l = Label.finish i then 1 else 0) := by
  simp [countReleases, List.countP_append, List.countP_cons]

lemma countP_set_add (f : Phase → Bool) :
    ∀ (ts : List Phase) (i : Nat) (q a : Phase), ts.get? i = some q →
      (ts.set i a).countP f + (if f q then 1 else 0)
        = ts.countP f + (if f a then 1 else 0) := by
  intro ts
  induction ts with
  | nil => intro i q a h; simp at h
  | cons x xs ih =>
    intro i q a h
    cases i with
    | zero =>
      rw [List.get?_cons_zero] at h
      injection h with h
      subst h
      simp only [List.set_cons_zero, List.countP_cons]
      split_ifs <;> omega
    | succ j =>
      rw [List.get?_cons_succ] at h
      have hxs := ih j q a h
      simp only [List.set_cons_succ, List.countP_cons]
      split_ifs at hxs ⊢ <;> omega

/-- The per-task counting invariant tying a task's phase to the number of
its channel sends and receives so far. -/
def permitCounts (i : Nat) (ts : List Phase) (ls : List Label) : Prop :=
  match ts.get? i with
  | some Phase.init => countAcquires i ls = 0 ∧ countReleases i ls = 0
  | some Phase.claimed => countAcquires i ls = 0 ∧ countReleases i ls = 0
  | some Phase.fetching => countAcquires i ls = 1 ∧ countReleases i ls = 0
  | some Phase.working => countAcquires i ls = 1 ∧ countReleases i ls = 0
  | some Phase.done =>
      countAcquires i ls ≤ 1 ∧ countReleases i ls = countAcquires i ls
  | none => countAcquires i ls = 0 ∧ countReleases i ls = 0

lemma permitCounts_other (i j : Nat) (hij : i ≠ j) (ts : List Phase)
    (p : Phase) (ls : List Label) (l : Label)
    (hA : ¬ (l = Label.acquire j))
    (hR : ¬ (l = Label.fetchFail j ∨ l = Label.finish j))
    (hP : permitCounts j ts ls) :
    permitCounts j (ts.set i p) (ls ++ [l]) := by
  unfold permitCounts at hP ⊢
  rw [List.get?_set_ne p ts hij, countAcquires_snoc, countReleases_snoc,
    if_neg hA, if_neg hR]
  simpa using hP

lemma permitCounts_spawn (i j : Nat) (ts : List Phase) (ls : List Label)
    (hP : permitCounts j ts ls) :
    permitCounts j (ts ++ [Phase.init]) (ls ++ [Label.spawn i]) := by
  unfold permitCounts at hP ⊢
  rw [countAcquires_snoc, countReleases_snoc, if_neg (by simp),
    if_neg (by simp)]
  by_cases hlt : j < ts.length
  · rw [List.get?_append hlt]
    simpa using hP
  · by_cases heq : j = ts.length
    · subst heq
      rw [List.get?_append_right (Nat.le_refl _), Nat.sub_self,
        List.get?_cons_zero]
      rw [List.get?_eq_none.mpr (Nat.le_refl _)] at hP
      simpa using hP
    · have hge : ts.length + 1 ≤ j := by omega
      rw [List.get?_eq_none.mpr (by simp; omega)]
      rw [List.get?_eq_none.mpr (by omega)] at hP
      simpa using hP

/-- The global invariant: the channel buffer never exceeds its capacity,
and every task's phase matches its send/receive counts. -/
lemma reaches_inv (cap : Nat) (ls : List Label) (ts : List Phase)
    (h : Reaches cap [Phase.init] ls ts) :
    holdingCount ts ≤ cap ∧ ∀ i, permitCounts i ts ls := by
  induction h with
  | refl =>
    refine ⟨?_, ?_⟩
    · have h0 : holdingCount [Phase.init] = 0 := rfl
      omega
    · intro i
      cases i with
      | zero => exact ⟨rfl, rfl⟩
      | succ j => exact ⟨rfl, rfl⟩
  | step h1 h2 ih =>
    obtain ⟨ihH, ihP⟩ := ih
    cases h2 with
    | claimSkip hget =>
      rename_i ts1 i
      obtain ⟨hlt, -⟩ := List.get?_eq_some.mp hget
      have hcs := countP_set_add holdsPermit ts1 i Phase.init Phase.done hget
      refine ⟨?_, ?_⟩
      · unfold holdingCount at ihH ⊢
        simp [holdsPermit] at hcs
        omega
      · intro j
        by_cases hj : j = i
        · subst hj
          have hPj := ihP j
          unfold permitCounts at hPj ⊢
          rw [hget] at hPj
          obtain ⟨hA, hR⟩ := hPj
          rw [List.get?_set_eq_of_lt _ hlt]
          simp only [countAcquires_snoc, countReleases_snoc]
          simp [hA, hR]
        · exact permitCounts_other i j (fun hh => hj hh.symm) _ _ _ _
            (by simp) (by simp) (ihP j)
    | claimOk hget =>
      rename_i ts1 i
      obtain ⟨hlt, -⟩ := List.get?_eq_some.mp hget
      have hcs := countP_set_add holdsPermit ts1 i Phase.init Phase.claimed hget
      refine ⟨?_, ?_⟩
      · unfold holdingCount at ihH ⊢
        simp [holdsPermit] at hcs
        omega
      · intro j
        by_cases hj : j = i
        · subst hj
          have hPj := ihP j
          unfold permitCounts at hPj ⊢
          rw [hget] at hPj
          obtain ⟨hA, hR⟩ := hPj
          rw [List.get?_set_eq_of_lt _ hlt]
          simp only [countAcquires_snoc, countReleases_snoc]
          simp [hA, hR]
        · exact permitCounts_other i j (fun hh => hj hh.symm) _ _ _ _
            (by simp) (by simp) (ihP j)
    | acquire hget hcap =>
      rename_i ts1 i
      obtain ⟨hlt, -⟩ := List.get?_eq_some.mp hget
      have hcs :=
        countP_set_add holdsPermit ts1 i Phase.claimed Phase.fetching hget
      refine ⟨?_, ?_⟩
      · unfold holdingCount at ihH hcap ⊢
        simp [holdsPermit] at hcs
        omega
      · intro j
        by_cases hj : j = i
        · subst hj
          have hPj := ihP j
          unfold permitCounts at hPj ⊢
          rw [hget] at hPj
          obtain ⟨hA, hR⟩ := hPj
          rw [List.get?_set_eq_of_lt _ hlt]
          simp only [countAcquires_snoc, countReleases_snoc]
          simp [hA, hR]
        · exact permitCounts_other i j (fun hh => hj hh.symm) _ _ _ _
            (by simp; omega) (by simp) (ihP j)
    | fetchReturn hget =>
      rename_i ts1 i
      obtain ⟨hlt, -⟩ := List.get?_eq_some.mp hget
      have hcs :=
        countP_set_add holdsPermit ts1 i Phase.fetching Phase.working hget
      refine ⟨?_, ?_⟩
      · unfold holdingCount at ihH ⊢
        simp [holdsPermit] at hcs
        omega
      · intro j
        by_cases hj : j = i
        · subst hj
          have hPj := ihP j
          unfold permitCounts at hPj ⊢
          rw [hget] at hPj
          obtain ⟨hA, hR⟩ := hPj
          rw [List.get?_set_eq_of_lt _ hlt]
          simp only [countAcquires_snoc, countReleases_snoc]
          simp [hA, hR]
        · exact permitCounts_other i j (fun hh => hj hh.symm) _ _ _ _
            (by simp) (by simp) (ihP j)
    | fetchFail hget =>
      rename_i ts1 i
      obtain ⟨hlt, -⟩ := List.get?_eq_some.mp hget
      have hcs :=
        countP_set_add holdsPermit ts1 i Phase.fetching Phase.done hget
      refine ⟨?_, ?_⟩
      · unfold holdingCount at ihH ⊢
        simp [holdsPermit] at hcs
        omega
      · intro j
        by_cases hj : j = i
        · subst hj
          have hPj := ihP j
          unfold permitCounts at hPj ⊢
          rw [hget] at hPj
          obtain ⟨hA, hR⟩ := hPj
          rw [List.get?_set_eq_of_lt _ hlt]
          simp only [countAcquires_snoc, countReleases_snoc]
          simp [hA, hR]
        · exact permitCounts_other i j (fun hh => hj hh.symm) _ _ _ _
            (by simp) (by simp; omega) (ihP j)
    | spawn hget =>
      rename_i ts1 i
      refine ⟨?_, ?_⟩
      · unfold holdingCount at ihH ⊢
        simp [List.countP_append, holdsPermit]
        simpa [holdingCount] using ihH
      · intro j
        exact permitCounts_spawn i j ts1 _ (ihP j)
    | finish hget =>
      rename_i ts1 i
      obtain ⟨hlt, -⟩ := List.get?_eq_some.mp hget
      have hcs :=
        countP_set_add holdsPermit ts1 i Phase.working Phase.done hget
      refine ⟨?_, ?_⟩
      · unfold holdingCount at ihH ⊢
        simp [holdsPermit] at hcs
        omega
      · intro j
        by_cases hj : j = i
        · subst hj
          have hPj := ihP j
          unfold permitCounts at hPj ⊢
          rw [hget] at hPj
          obtain ⟨hA, hR⟩ := hPj
          rw [List.get?_set_eq_of_lt _ hlt]
          simp only [countAcquires_snoc, countReleases_snoc]
          simp [hA, hR]
        · exact permitCounts_other i j (fun hh => hj hh.symm) _ _ _ _
            (by simp) (by simp; omega) (ihP j)

lemma countP_le_countP (f g : Phase → Bool) (h : ∀ a, f a = true → g a = true) :
    ∀ l : List Phase, l.countP f ≤ l.countP g := by
  intro l
  induction l with
  | nil => simp
  | cons a t ih =>
    simp only [List.countP_cons]
    by_cases hf : f a = true
    · rw [if_pos hf, if_pos (h a hf)]; omega
    · rw [if_neg hf]
      split_ifs <;> omega

/-- C5: in every reachable state of a run, at most `cap` fetches execute
simultaneously; each task sends on the channel at most once, never
receives more than it sent, receives before fetching exactly once
(acquire-before-fetch), and a finished task has received exactly as often
as it sent — the permit is released exactly once on every exit path after
acquisition. -/
theorem concurrency_bound (cap : Nat) (ls : List Label) (ts : List Phase)
    (h : Reaches cap [Phase.init] ls ts) :
    fetchingCount ts ≤ cap
    ∧ (∀ i, countAcquires i ls ≤ 1
        ∧ countReleases i ls ≤ countAcquires i ls)
    ∧ (∀ i, ts.get? i = some Phase.fetching → countAcquires i ls = 1)
    ∧ (∀ i, ts.get? i = some Phase.done →
        countReleases i ls = countAcquires i ls) := by
  obtain ⟨hH, hP⟩ := reaches_inv cap ls ts h
  refine ⟨?_, ?_, ?_, ?_⟩
  · calc fetchingCount ts
        ≤ holdingCount ts := by
          apply countP_le_countP
          intro a ha
          cases a <;> simp_all [holdsPermit]
      _ ≤ cap := hH
  · intro i
    have hPi := hP i
    unfold permitCounts at hPi
    cases hg : ts.get? i with
    | none => rw [hg] at hPi; omega
    | some p => rw [hg] at hPi; cases p <;> omega
  · intro i hg
    have hPi := hP i
    unfold permitCounts at hPi
    rw [hg] at hPi
    exact hPi.1
  · intro i hg
    have hPi := hP i
    unfold permitCounts at hPi
    rw [hg] at hPi
    exact hPi.2

/-- Witness for concurrency_bound along a concrete three-step trace with
capacity 1. -/
theorem concurrency_bound_witness :
    fetchingCount [Phase.done] ≤ 1 := by
  have r1 : Reaches 1 [Phase.init] [] [Phase.init] := Reaches.refl _
  have r2 : Reaches 1 [Phase.init] ([] ++ [Label.claimOk 0]) [Phase.claimed] :=
    Reaches.step r1 (Step.claimOk rfl)
  have r3 : Reaches 1 [Phase.init]
      (([] ++ [Label.claimOk 0]) ++ [Label.acquire 0]) [Phase.fetching] :=
    Reaches.step r2 (Step.acquire rfl (by decide))
  have r4 : Reaches 1 [Phase.init]
      ((([] ++ [Label.claimOk 0]) ++ [Label.acquire 0]) ++ [Label.fetchFail 0])
      [Phase.done] :=
    Reaches.step r3 (Step.fetchFail rfl)
  exact (concurrency_bound 1 _ _ r4).1

end WebCrawler
